import Mathlib

/-!
Verification of the ingestion and tiered-labeling pipeline of the
Resume-Classification-App repository (`preprocess.py`).

Strings are modelled as `List Char`.  Python string primitives used by the
source (`str.lower`, `str.strip`, the regular-expression substitutions of
`_clean_text` and `_match_prefix_to_profile`, substring containment,
`os.path.splitext`, `os.path.join`, `os.path.basename`) are embedded as
executable Lean functions.  `str.lower` is modelled on ASCII letters and
`str.strip` on the six ASCII whitespace characters, which is exact for every
input the claims mention.  The external libraries touched by
`extract_text` (PyMuPDF's `fitz.open`, `docx2txt.process`, `open(...).read()`)
are abstracted as an environment of fallible oracles, so that exception
propagation through the extractor is observable in the model.
-/

/-- ASCII whitespace, the characters stripped by Python `str.strip()` and
matched by the regex class `\s` on the inputs that occur here. -/
def isWS (c : Char) : Bool :=
  c == ' ' || c == '\t' || c == '\n' || c == '\r' || c == '\x0b' || c == '\x0c'

/-- Horizontal whitespace, the regex class `[ \t]` of `_clean_text`. -/
def isHW (c : Char) : Bool := c == ' ' || c == '\t'

/-- The newline character, the regex class `\n` of `_clean_text`. -/
def isNL (c : Char) : Bool := c == '\n'

/-- Python `str.lower()` on one ASCII character. -/
def pyToLower (c : Char) : Char :=
  if 'A' ≤ c && c ≤ 'Z' then Char.ofNat (c.toNat + 32) else c

/-- Python `str.lower()`. -/
def pyLower (l : List Char) : List Char := l.map pyToLower

/-- Python `str.strip()`: drop whitespace from both ends. -/
def pyStrip (l : List Char) : List Char :=
  ((l.dropWhile isWS).reverse.dropWhile isWS).reverse

/-- State machine for `re.sub(p+, r, s)`: replace every maximal run of
characters satisfying `p` by the single character `r`.  The Boolean state
records whether the previous character belonged to a run. -/
def replaceRunsAux (p : Char → Bool) (r : Char) : Bool → List Char → List Char
  | _, [] => []
  | inRun, c :: rest =>
    if p c then
      if inRun then replaceRunsAux p r true rest
      else r :: replaceRunsAux p r true rest
    else c :: replaceRunsAux p r false rest

/-- Replace every maximal run of `p`-characters by the single character `r`,
the effect of `re.sub` with a `+`-quantified character class. -/
def replaceRuns (p : Char → Bool) (r : Char) (l : List Char) : List Char :=
  replaceRunsAux p r false l

/-- Line 13 of preprocess.py: `re.sub(r"\r\n", "\n", s)`, the left-to-right
non-overlapping replacement of the two-character sequence CRLF by LF. -/
def replCRLF : List Char → List Char
  | [] => []
  | [c] => [c]
  | c :: d :: rest =>
    if c == '\r' && d == '\n' then '\n' :: replCRLF rest
    else c :: replCRLF (d :: rest)

/-- Line 14 of preprocess.py: `re.sub(r"\n+", "\n", s)`. -/
def collapseNL (l : List Char) : List Char := replaceRuns isNL '\n' l

/-- State of the `[ \t]{2,}` scanner: outside a run, after exactly one
horizontal-whitespace character `c`, or inside a run of length at least two
whose replacement space has already been emitted. -/
inductive HWState where
  | norm : HWState
  | one (c : Char) : HWState
  | many : HWState

/-- Scanner for `re.sub(r"[ \t]{2,}", " ", s)`: a maximal run of two or more
horizontal-whitespace characters becomes one space, a run of exactly one is
kept unchanged. -/
def collapseHWAux : HWState → List Char → List Char
  | HWState.norm, [] => []
  | HWState.one c, [] => [c]
  | HWState.many, [] => []
  | HWState.norm, c :: rest =>
    if isHW c then collapseHWAux (HWState.one c) rest
    else c :: collapseHWAux HWState.norm rest
  | HWState.one c, d :: rest =>
    if isHW d then ' ' :: collapseHWAux HWState.many rest
    else c :: d :: collapseHWAux HWState.norm rest
  | HWState.many, d :: rest =>
    if isHW d then collapseHWAux HWState.many rest
    else d :: collapseHWAux HWState.norm rest

/-- Line 15 of preprocess.py: `re.sub(r"[ \t]{2,}", " ", s)`. -/
def collapseHW (l : List Char) : List Char := collapseHWAux HWState.norm l

/-- preprocess.py lines 10-16, `_clean_text`: CRLF to LF, collapse newline
runs, collapse horizontal-whitespace runs of length at least two to one
space, then strip.  The `if not s: return ""` guard coincides with the
pipeline's value on the empty string. -/
def cleanText (l : List Char) : List Char :=
  pyStrip (collapseHW (collapseNL (replCRLF l)))

/-- Python substring containment `needle in hay`. -/
def isSubstr (needle : List Char) : List Char → Bool
  | [] => needle.isEmpty
  | c :: rest => needle.isPrefixOf (c :: rest) || isSubstr needle rest

/-- Python `str.endswith(suffixStr)`. -/
def pyEndsWith (l suf : List Char) : Bool := suf.reverse.isPrefixOf l.reverse

/-- preprocess.py lines 87-91: `FOLDER_CATEGORY_MAP`, an insertion-ordered
association list standing for the Python dict. -/
def FOLDER_CATEGORY_MAP : List (List Char × List Char) :=
  [("peoplesoft resumes".toList, "PeopleSoft".toList),
   ("sql developer lightning insight".toList, "SQL Developer".toList),
   ("workday resumes".toList, "Workday".toList)]

/-- preprocess.py lines 93-109: `PREFIX_PROFILE_MAP`, an insertion-ordered
association list standing for the Python dict. -/
def PREFIX_PROFILE_MAP : List (List Char × List Char) :=
  [("react dev".toList, "UI Developer (React JS)".toList),
   ("react developer".toList, "UI Developer (React JS)".toList),
   ("react js developer".toList, "UI Developer (React JS)".toList),
   ("ui-developer/ react js developer".toList, "UI Developer (React JS)".toList),
   ("ui developer".toList, "UI Developer (React JS)".toList),
   ("peoplesoft admin".toList, "PeopleSoft Administrator".toList),
   ("peoplesoft".toList, "PeopleSoft Technical/Functional Consultant".toList),
   ("peoplesoft finance".toList, "PeopleSoft Finance Specialist".toList),
   ("peoplesoft fscm".toList, "PeopleSoft FSCM Consultant".toList),
   ("workday".toList, "Workday Specialist".toList),
   ("sql developer".toList, "Database / SQL Developer".toList),
   ("sql".toList, "SQL Developer".toList),
   ("internship".toList, "Software Intern".toList),
   ("intern".toList, "Software Intern".toList)]

/-- Python dict membership plus indexing, `m[k] if k in m else None`, on the
ordered association list. -/
def lookupMap : List (List Char × List Char) → List Char → Option (List Char)
  | [], _ => none
  | kv :: rest, key => if kv.1 == key then some kv.2 else lookupMap rest key

/-- The `for key, val in PREFIX_PROFILE_MAP.items(): if key in p: return val`
loop of `_match_prefix_to_profile` (preprocess.py lines 120-122): value of
the first key, in insertion order, that is a substring of `p`. -/
def firstSubstrMatch : List (List Char × List Char) → List Char → Option (List Char)
  | [], _ => none
  | kv :: rest, p => if isSubstr kv.1 p then some kv.2 else firstSubstrMatch rest p

/-- The character class `[a-z0-9 ]` of `_match_prefix_to_profile`. -/
def isAlnumSpace (c : Char) : Bool :=
  ('a' ≤ c && c ≤ 'z') || ('0' ≤ c && c ≤ '9') || c == ' '

/-- preprocess.py lines 112-114: the normalization of
`_match_prefix_to_profile` — lowercase, strip, replace every run of
characters outside `[a-z0-9 ]` by one space (`re.sub(r"[^a-z0-9 ]+", " ", p)`),
collapse whitespace runs (`re.sub(r"\s+", " ", p)`), strip. -/
def normPref (s : List Char) : List Char :=
  pyStrip (replaceRuns isWS ' '
    (replaceRuns (fun c => !(isAlnumSpace c)) ' ' (pyStrip (pyLower s))))

/-- preprocess.py lines 111-123, `_match_prefix_to_profile`: normalize the
prefix, return `None` when it is empty, try the exact dict lookup, then the
first-substring-match loop. -/
def matchPrefixToProfile (s : List Char) : Option (List Char) :=
  if (normPref s).isEmpty then none
  else
    match lookupMap PREFIX_PROFILE_MAP (normPref s) with
    | some v => some v
    | none => firstSubstrMatch PREFIX_PROFILE_MAP (normPref s)

/-- CPython `os.path.splitext` restricted to file names without path
separators: split off the suffix that starts at the last dot, unless every
character before that dot is itself a dot. -/
def splitext (name : List Char) : List Char × List Char :=
  let r := name.reverse
  let afterRev := r.takeWhile (fun c => !(c == '.'))
  if afterRev.length == r.length then (name, [])
  else
    let root0 := (r.drop (afterRev.length + 1)).reverse
    if root0.any (fun c => !(c == '.')) then (root0, '.' :: afterRev.reverse)
    else (name, [])

/-- preprocess.py lines 166-167: the filename prefix fed to
`_match_prefix_to_profile` — the name without extension, cut at the first
underscore if one occurs, else at the first hyphen. -/
def fnamePref (file_name : List Char) : List Char :=
  if (splitext file_name).1.any (fun c => c == '_') then
    (splitext file_name).1.takeWhile (fun c => !(c == '_'))
  else
    (splitext file_name).1.takeWhile (fun c => !(c == '-'))

/-- preprocess.py lines 140-151: the sub-role refinement of the PeopleSoft
folder category, checking the lowercased file name and text in the fixed
order admin, fscm, finance, business-data. -/
def refinePeopleSoft (file_name extracted_text : List Char) : List Char :=
  if isSubstr "admin".toList (pyLower file_name)
      || isSubstr "admin".toList (pyLower extracted_text) then
    "PeopleSoft Administrator".toList
  else if isSubstr "fscm".toList (pyLower file_name)
      || isSubstr "fscm".toList (pyLower extracted_text) then
    "PeopleSoft FSCM Consultant".toList
  else if isSubstr "finance".toList (pyLower file_name)
      || isSubstr "finance".toList (pyLower extracted_text) then
    "PeopleSoft Finance Specialist".toList
  else if isSubstr "bda".toList (pyLower file_name)
      || isSubstr "business data".toList (pyLower extracted_text) then
    "PeopleSoft Business Data Analyst".toList
  else
    "PeopleSoft Technical/Functional Consultant".toList

/-- preprocess.py lines 140-158: map a folder category found in
`FOLDER_CATEGORY_MAP` to a profile. -/
def catProfile (cat file_name extracted_text : List Char) : List Char :=
  if cat == "PeopleSoft".toList then refinePeopleSoft file_name extracted_text
  else if cat == "Workday".toList then "Workday Specialist".toList
  else if cat == "SQL Developer".toList then
    "Database Developer / SQL Developer".toList
  else cat

/-- preprocess.py lines 173-192: the keyword tier of `derive_profile`,
applied to the lowercased extracted text. -/
def keywordProfile (t : List Char) : List Char :=
  if isSubstr "react".toList t
      && (isSubstr "ui".toList t || isSubstr "frontend".toList t
          || isSubstr "front end".toList t || isSubstr "javascript".toList t) then
    "UI Developer (React JS)".toList
  else if isSubstr "peoplesoft".toList t then
    if isSubstr "admin".toList t then "PeopleSoft Administrator".toList
    else if isSubstr "fscm".toList t then "PeopleSoft FSCM Consultant".toList
    else if isSubstr "finance".toList t || isSubstr "general ledger".toList t then
      "PeopleSoft Finance Specialist".toList
    else "PeopleSoft Technical/Functional Consultant".toList
  else if isSubstr "workday".toList t || isSubstr "hcm".toList t then
    "Workday Specialist".toList
  else if isSubstr "sql".toList t || isSubstr "pl/sql".toList t
      || isSubstr "oracle".toList t || isSubstr "mysql".toList t
      || isSubstr "postgresql".toList t || isSubstr "database".toList t then
    "Database Developer / SQL Developer".toList
  else if isSubstr "intern".toList t || isSubstr "internship".toList t then
    "Software Intern".toList
  else
    "Other".toList

/-- preprocess.py lines 165-192, tiers 2 and 3 of `derive_profile`: the
filename-prefix lookup, then the keyword tier over the lowercased text,
with final fallback "Other". -/
def tier23 (file_name extracted_text : List Char) : List Char :=
  match matchPrefixToProfile (fnamePref file_name) with
  | some v => v
  | none => keywordProfile (pyLower extracted_text)

/-- preprocess.py line 161: the generic folder names excluded from the
folder-as-profile rule, the tuple `("resumes", "resume", ".", "")`. -/
def genericFolderNames : List (List Char) :=
  ["resumes".toList, "resume".toList, ".".toList, "".toList]

/-- preprocess.py lines 125-192, `derive_profile`: tier 1 uses the stripped,
lowercased folder name (folder-map hit refined by `catProfile`, otherwise a
non-generic folder name is returned verbatim), then tiers 2 and 3. -/
def derive_profile (file_name folder_name extracted_text : List Char) : List Char :=
  if (pyStrip folder_name).isEmpty then tier23 file_name extracted_text
  else
    match lookupMap FOLDER_CATEGORY_MAP (pyLower (pyStrip folder_name)) with
    | some cat => catProfile cat file_name extracted_text
    | none =>
      if !(pyLower (pyStrip folder_name)).isEmpty
          && !(genericFolderNames.any (fun g => g == pyLower (pyStrip folder_name))) then
        pyStrip folder_name
      else tier23 file_name extracted_text

/-- preprocess.py line 222: the Category column,
`FOLDER_CATEGORY_MAP.get(x.lower(), "React JS Developer")`. -/
def categoryOf (folder : List Char) : List Char :=
  (lookupMap FOLDER_CATEGORY_MAP (pyLower folder)).getD "React JS Developer".toList

example : derive_profile "react dev_jsmith.pdf".toList "Resumes".toList "has PeopleSoft".toList
    = "UI Developer (React JS)".toList := by decide
example : derive_profile "admin finance.doc".toList "PeopleSoft Resumes".toList "finance".toList
    = "PeopleSoft Administrator".toList := by decide
example : derive_profile "x.doc".toList "Workday Resumes".toList "whatever".toList
    = "Workday Specialist".toList := by decide
example : derive_profile "x.doc".toList "SQL Developer Lightning Insight".toList "t".toList
    = "Database Developer / SQL Developer".toList := by decide
example : derive_profile "resume.txt".toList "".toList "nothing here".toList
    = "Other".toList := by decide
example : categoryOf "".toList = "React JS Developer".toList := by decide
example : matchPrefixToProfile "my peoplesoft finance".toList
    = some "PeopleSoft Technical/Functional Consultant".toList := by decide
example : splitext "react dev_jsmith.pdf".toList
    = ("react dev_jsmith".toList, ".pdf".toList) := by decide
example : splitext ".bashrc".toList = (".bashrc".toList, ([] : List Char)) := by decide
example : fnamePref "react dev_jsmith.pdf".toList = "react dev".toList := by decide
example : normPref " React--Dev ".toList = "react dev".toList := by decide

/-- The external libraries used by `extract_text`, abstracted as oracles.
`fitzOpen` models `fitz.open` followed by per-page `get_text` (a malformed or
zero-byte file makes `fitz.open` raise, modelled as `Except.error`);
`docxProcess` models `docx2txt.process`; `readUtf8` models
`open(path, encoding='utf-8').read()`, which raises on a missing file or on
bytes that are not valid UTF-8. -/
structure ExtractionEnv where
  fitzOpen : List Char → Except (List Char) (List (List Char))
  docxProcess : List Char → Except (List Char) (List Char)
  readUtf8 : List Char → Except (List Char) (List Char)

/-- preprocess.py lines 70-83, the `extract_text` actually called by
`preprocess_data` and by the Streamlit front end.  It has no `try`/`except`:
any library failure propagates (`Except.error`).  Dispatch is by
case-sensitive `endswith` on `".pdf"` then `".docx"`; every other path is
read as a UTF-8 text file.  The `.pdf` branch concatenates the page texts
with no separator (`text += page.get_text()`). -/
def extract_text (env : ExtractionEnv) (file_path : List Char) :
    Except (List Char) (List Char) :=
  if pyEndsWith file_path ".pdf".toList then
    match env.fitzOpen file_path with
    | Except.error e => Except.error e
    | Except.ok pages => Except.ok (pages.foldl (fun acc p => acc ++ p) [])
  else if pyEndsWith file_path ".docx".toList then
    env.docxProcess file_path
  else
    env.readUtf8 file_path

/-- preprocess.py lines 19-32, the earlier (now unused) `extract_text_from_pdf`:
whole-document failures are swallowed into the empty string, pages are joined
with `" "` and the result is normalized with `_clean_text`. -/
def extract_text_from_pdf (env : ExtractionEnv) (path : List Char) : List Char :=
  match env.fitzOpen path with
  | Except.error _ => cleanText []
  | Except.ok pages => cleanText (List.intercalate " ".toList pages)

/-- CPython `posixpath.join(root, fname)` for a single component. -/
def joinPath (root fname : List Char) : List Char :=
  if fname.head? == some '/' then fname
  else if root.isEmpty then fname
  else if root.reverse.head? == some '/' then root ++ fname
  else root ++ '/' :: fname

/-- CPython `posixpath.basename`: the part after the last separator. -/
def basenameOf (root : List Char) : List Char :=
  (root.reverse.takeWhile (fun c => !(c == '/'))).reverse

/-- One row of the output table of `preprocess_data`; the seven fields model
the seven columns `Folder, File, Type, Path, Text, Category, Profile`. -/
structure ResumeRow where
  folder : List Char
  file : List Char
  type : List Char
  path : List Char
  text : List Char
  category : List Char
  profile : List Char
deriving DecidableEq

/-- The first five fields, as built inside the `os.walk` loop
(preprocess.py lines 208-214) before the Category and Profile columns are
added. -/
structure RawRow where
  folder : List Char
  file : List Char
  type : List Char
  path : List Char
  text : List Char
deriving DecidableEq

/-- The `(root, files)` pairs yielded by `os.walk(main_path)`, in traversal
order, flattened to one `(root, fname)` pair per file in the order the two
nested `for` loops of `preprocess_data` visit them. -/
def walkFiles : List (List Char × List (List Char)) → List (List Char × List Char)
  | [] => []
  | rf :: rest => rf.2.map (fun f => (rf.1, f)) ++ walkFiles rest

/-- The body of the `os.walk` loop of `preprocess_data` (lines 201-214):
path join, lowercased extension, text extraction (whose exception, if any,
propagates and aborts the walk), folder basename. -/
def buildRawRows (env : ExtractionEnv) :
    List (List Char × List Char) → Except (List Char) (List RawRow)
  | [] => Except.ok []
  | rf :: rest =>
    match extract_text env (joinPath rf.1 rf.2) with
    | Except.error e => Except.error e
    | Except.ok text =>
      match buildRawRows env rest with
      | Except.error e => Except.error e
      | Except.ok rs =>
        Except.ok (⟨basenameOf rf.1, rf.2, pyLower (splitext rf.2).2,
          joinPath rf.1 rf.2, text⟩ :: rs)

/-- preprocess.py lines 195-227, `preprocess_data`: build the raw rows from
the walk, return the empty table when there are none (`if df.empty`),
otherwise add the `Category` column (line 222) and the `Profile` column
(line 225). -/
def preprocess_data (env : ExtractionEnv)
    (walk : List (List Char × List (List Char))) :
    Except (List Char) (List ResumeRow) :=
  match buildRawRows env (walkFiles walk) with
  | Except.error e => Except.error e
  | Except.ok rows =>
    if rows.isEmpty then Except.ok []
    else
      Except.ok (rows.map (fun r =>
        ⟨r.folder, r.file, r.type, r.path, r.text,
         categoryOf r.folder, derive_profile r.file r.folder r.text⟩))

/-- The four columns of a row that are determined by the walk alone. -/
def rowKey (r : ResumeRow) : List Char × List Char × List Char × List Char :=
  (r.folder, r.file, r.type, r.path)

/-- The value `rowKey` must take on the row built for a `(root, fname)`
pair. -/
def expectedKey (p : List Char × List Char) :
    List Char × List Char × List Char × List Char :=
  (basenameOf p.1, p.2, pyLower (splitext p.2).2, joinPath p.1 p.2)

/-- Environment of a corpus whose only file is a zero-byte `empty.pdf`：
PyMuPDF raises on it, `docx2txt` and `open` likewise fail. -/
def envEmptyPdf : ExtractionEnv :=
  ⟨fun _ => Except.error "cannot open empty file: filename='empty.pdf'".toList,
   fun _ => Except.error "docx2txt failed".toList,
   fun _ => Except.error "UnicodeDecodeError".toList⟩

/-- Environment holding a readable non-resume text file `notes.xyz` with
contents "hello". -/
def envOtherExt : ExtractionEnv :=
  ⟨fun _ => Except.error "not a pdf".toList,
   fun _ => Except.error "not a docx".toList,
   fun p => if p == "notes.xyz".toList then Except.ok "hello".toList
            else Except.error "FileNotFoundError".toList⟩

/-- Environment holding a one-page pdf `r.pdf` whose raw page text contains a
double space, so that raw text and `_clean_text`-normalized text differ. -/
def envRawPdf : ExtractionEnv :=
  ⟨fun p => if p == "r.pdf".toList then Except.ok ["a  b".toList]
            else Except.error "no such file".toList,
   fun _ => Except.error "not a docx".toList,
   fun p => if p == "dir/a.docx".toList then Except.ok "hi there".toList
            else Except.error "FileNotFoundError".toList⟩

/-- Environment for the corpus-walk witness: a single `a.docx` under `dir`. -/
def envDocxDir : ExtractionEnv :=
  ⟨fun _ => Except.error "not a pdf".toList,
   fun p => if p == "dir/a.docx".toList then Except.ok "hi there".toList
            else Except.error "no such file".toList,
   fun _ => Except.error "FileNotFoundError".toList⟩

example : extract_text envEmptyPdf "empty.pdf".toList
    = Except.error "cannot open empty file: filename='empty.pdf'".toList := rfl
example : extract_text envOtherExt "notes.xyz".toList = Except.ok "hello".toList := rfl
example : extract_text envRawPdf "r.pdf".toList = Except.ok "a  b".toList := rfl
example : preprocess_data envDocxDir [("dir".toList, ["a.docx".toList])]
    = Except.ok [⟨"dir".toList, "a.docx".toList, ".docx".toList,
        "dir/a.docx".toList, "hi there".toList,
        "React JS Developer".toList, "dir".toList⟩] := rfl
example : preprocess_data envDocxDir [] = Except.ok [] := rfl

example : cleanText "  a\r\nb\n\n\nc\t\td  ".toList = "a\nb\nc d".toList := by decide
example : cleanText "a\r\r\nb".toList = "a\r\nb".toList := by decide
example : cleanText (cleanText "a\r\r\nb".toList) = "a\nb".toList := by decide
example : isSubstr "admin".toList "xadminy".toList = true := by decide
example : isSubstr "admin".toList "adm_in".toList = false := by decide
example : pyEndsWith "x.pdf".toList ".pdf".toList = true := by decide
example : pyEndsWith "x.PDF".toList ".pdf".toList = false := by decide
example : pyStrip "  ab ".toList = "ab".toList := by decide
example : pyLower "Ab-Z".toList = "ab-z".toList := by decide

/-- The spec's description of prefix lookup (spec §3, PrefixProfileMap):
after normalization, the exact-match value if the normalized prefix is a map
key, otherwise the value of the first key in insertion order that is a
substring of the normalized prefix, phrased with `List.find?`.  Used only to
compare against `matchPrefixToProfile`, which embeds the source loop. -/
def prefixLookupSpec (s : List Char) : Option (List Char) :=
  if (normPref s).isEmpty then none
  else
    match PREFIX_PROFILE_MAP.find? (fun kv => kv.1 == normPref s) with
    | some kv => some kv.2
    | none =>
      (PREFIX_PROFILE_MAP.find? (fun kv => isSubstr kv.1 (normPref s))).map
        (fun kv => kv.2)

/-- No two adjacent characters of the list both satisfy `p`. -/
def noAdjPair (p : Char → Bool) : List Char → Bool
  | [] => true
  | [_] => true
  | c :: d :: rest => !(p c && p d) && noAdjPair p (d :: rest)

/-! ### Helper lemmas -/

theorem ne_nil_of_isEmpty_eq_false {l : List Char} (h : l.isEmpty = false) :
    l ≠ [] := by
  cases l with
  | nil => simp [List.isEmpty] at h
  | cons a t => simp

theorem lookupMap_mem {m : List (List Char × List Char)} {k v : List Char}
    (h : lookupMap m k = some v) : ∃ kv, kv ∈ m ∧ kv.2 = v := by
  induction m with
  | nil => simp [lookupMap] at h
  | cons a rest ih =>
    unfold lookupMap at h
    by_cases hk : (a.1 == k) = true
    · rw [if_pos hk] at h
      exact ⟨a, List.mem_cons_self a rest, Option.some.inj h⟩
    · rw [if_neg hk] at h
      obtain ⟨kv, hm, hv⟩ := ih h
      exact ⟨kv, List.mem_cons_of_mem a hm, hv⟩

theorem firstSubstrMatch_mem {m : List (List Char × List Char)} {p v : List Char}
    (h : firstSubstrMatch m p = some v) : ∃ kv, kv ∈ m ∧ kv.2 = v := by
  induction m with
  | nil => simp [firstSubstrMatch] at h
  | cons a rest ih =>
    unfold firstSubstrMatch at h
    by_cases hk : isSubstr a.1 p = true
    · rw [if_pos hk] at h
      exact ⟨a, List.mem_cons_self a rest, Option.some.inj h⟩
    · rw [if_neg hk] at h
      obtain ⟨kv, hm, hv⟩ := ih h
      exact ⟨kv, List.mem_cons_of_mem a hm, hv⟩

theorem refinePeopleSoft_ne_nil (fn t : List Char) : refinePeopleSoft fn t ≠ [] := by
  unfold refinePeopleSoft
  repeat' split
  all_goals decide

theorem keywordProfile_ne_nil (t : List Char) : keywordProfile t ≠ [] := by
  unfold keywordProfile
  repeat' split
  all_goals decide

theorem catProfile_ne_nil {cat : List Char} (fn t : List Char) (hcat : cat ≠ []) :
    catProfile cat fn t ≠ [] := by
  unfold catProfile
  split
  · exact refinePeopleSoft_ne_nil fn t
  · split
    · decide
    · split
      · decide
      · exact hcat

theorem matchPrefixToProfile_ne_nil {s v : List Char}
    (h : matchPrefixToProfile s = some v) : v ≠ [] := by
  have hvals : ∀ kv ∈ PREFIX_PROFILE_MAP, kv.2 ≠ [] := by decide
  unfold matchPrefixToProfile at h
  split at h
  · exact absurd h (by simp)
  · split at h
    next x hx =>
      obtain ⟨kv, hm, hv⟩ := lookupMap_mem hx
      have := hvals kv hm
      rw [hv] at this
      exact Option.some.inj h ▸ this
    next =>
      obtain ⟨kv, hm, hv⟩ := firstSubstrMatch_mem h
      exact hv ▸ hvals kv hm

theorem tier23_ne_nil (fn t : List Char) : tier23 fn t ≠ [] := by
  unfold tier23
  split
  next v hv => exact matchPrefixToProfile_ne_nil hv
  next => exact keywordProfile_ne_nil _

theorem derive_profile_ne_nil (fn fo t : List Char) : derive_profile fn fo t ≠ [] := by
  unfold derive_profile
  split
  · exact tier23_ne_nil fn t
  next hne =>
    split
    next cat hcat =>
      have hvals : ∀ kv ∈ FOLDER_CATEGORY_MAP, kv.2 ≠ [] := by decide
      obtain ⟨kv, hm, hv⟩ := lookupMap_mem hcat
      exact catProfile_ne_nil fn t (hv ▸ hvals kv hm)
    next =>
      split
      · have hfe : (pyStrip fo).isEmpty = false := by
          revert hne
          cases (pyStrip fo).isEmpty <;> simp
        exact ne_nil_of_isEmpty_eq_false hfe
      · exact tier23_ne_nil fn t

theorem categoryOf_mem (fo : List Char) :
    categoryOf fo ∈ ["PeopleSoft".toList, "SQL Developer".toList,
      "Workday".toList, "React JS Developer".toList] := by
  unfold categoryOf
  cases h : lookupMap FOLDER_CATEGORY_MAP (pyLower fo) with
  | none => simp
  | some v =>
    have hvals : ∀ kv ∈ FOLDER_CATEGORY_MAP,
        kv.2 = "PeopleSoft".toList ∨ kv.2 = "SQL Developer".toList ∨
        kv.2 = "Workday".toList := by decide
    obtain ⟨kv, hm, hv⟩ := lookupMap_mem h
    rcases hvals kv hm with h1 | h1 | h1 <;> rw [hv] at h1 <;> simp [h1]

/-- C2: for every triple (fileName, folderName, text), including the
all-empty triple, label resolution is total: the profile computed by
`derive_profile` and the category computed as in `preprocess_data` line 222
are both non-empty strings, the category being a `FOLDER_CATEGORY_MAP` value
or the fixed default "React JS Developer". -/
theorem c2_label_resolution_total (fn fo t : List Char) :
    derive_profile fn fo t ≠ [] ∧ categoryOf fo ≠ [] ∧
      categoryOf fo ∈ ["PeopleSoft".toList, "SQL Developer".toList,
        "Workday".toList, "React JS Developer".toList] := by
  refine ⟨derive_profile_ne_nil fn fo t, ?_, categoryOf_mem fo⟩
  have h := categoryOf_mem fo
  simp only [List.mem_cons, List.not_mem_nil, or_false] at h
  rcases h with h | h | h | h <;> rw [h] <;> decide

theorem lookupMap_eq_findq (m : List (List Char × List Char)) (k : List Char) :
    lookupMap m k = (m.find? (fun kv => kv.1 == k)).map (fun kv => kv.2) := by
  induction m with
  | nil => rfl
  | cons a rest ih =>
    cases h : (a.1 == k) with
    | true => simp [lookupMap, List.find?_cons, h]
    | false => simp [lookupMap, List.find?_cons, h, ih]

theorem firstSubstrMatch_eq_findq (m : List (List Char × List Char)) (p : List Char) :
    firstSubstrMatch m p = (m.find? (fun kv => isSubstr kv.1 p)).map (fun kv => kv.2) := by
  induction m with
  | nil => rfl
  | cons a rest ih =>
    cases h : isSubstr a.1 p with
    | true => simp [firstSubstrMatch, List.find?_cons, h]
    | false => simp [firstSubstrMatch, List.find?_cons, h, ih]

theorem matchPrefixToProfile_eq_spec (s : List Char) :
    matchPrefixToProfile s = prefixLookupSpec s := by
  unfold matchPrefixToProfile prefixLookupSpec
  split
  · rfl
  · cases hf : PREFIX_PROFILE_MAP.find? (fun kv => kv.1 == normPref s) with
    | some kv => rw [lookupMap_eq_findq, hf]; rfl
    | none =>
      rw [lookupMap_eq_findq, hf]
      simp only [Option.map_none']
      exact firstSubstrMatch_eq_findq PREFIX_PROFILE_MAP (normPref s)

/-- C3: filename-prefix lookup normalizes the prefix, returns the exact-match
value when the normalized prefix is a key, and otherwise the value of the
first key in insertion order that is a substring of the normalized prefix —
not the longest or best match.  The source loop `matchPrefixToProfile` agrees
with the `List.find?` phrasing of that policy on every input, and on the
prefix "my peoplesoft finance", which contains both the key "peoplesoft"
(inserted earlier) and the longer key "peoplesoft finance" (inserted later)
as substrings, the earlier-inserted key's profile is returned rather than the
longer match's. -/
theorem c3_prefix_lookup_first_match_wins :
    (∀ s, matchPrefixToProfile s = prefixLookupSpec s) ∧
    matchPrefixToProfile "my peoplesoft finance".toList
      = some "PeopleSoft Technical/Functional Consultant".toList ∧
    isSubstr "peoplesoft".toList (normPref "my peoplesoft finance".toList) = true ∧
    isSubstr "peoplesoft finance".toList (normPref "my peoplesoft finance".toList) = true ∧
    lookupMap PREFIX_PROFILE_MAP "peoplesoft finance".toList
      = some "PeopleSoft Finance Specialist".toList ∧
    "PeopleSoft Finance Specialist".toList
      ≠ "PeopleSoft Technical/Functional Consultant".toList :=
  ⟨matchPrefixToProfile_eq_spec, by decide, by decide, by decide, by decide, by decide⟩

/-- C1 (evaluation at the failing input): in the corpus whose `empty.pdf` is
a zero-byte file — on which PyMuPDF's `fitz.open` raises — the active
`extract_text` of preprocess.py lines 70-83 propagates the exception to its
caller instead of returning a string: it has no `try`/`except`, contradicting
the comment at line 205 ("safe; extract_text handles exceptions") and the
earlier, unused `extract_text_from_pdf`. -/
theorem c1_zero_byte_pdf_exception_propagates :
    extract_text envEmptyPdf "empty.pdf".toList
      = Except.error "cannot open empty file: filename='empty.pdf'".toList ∧
    ∀ s : List Char, extract_text envEmptyPdf "empty.pdf".toList ≠ Except.ok s :=
  ⟨rfl, fun _ h => Except.noConfusion h⟩

/-- C4 (counterexample): for the path "notes.xyz", whose lowercased extension
is none of .pdf, .docx, .doc, .txt, the extractor does not return the empty
string — it reads the file and returns its contents "hello". -/
theorem c4_counterexample_other_ext_is_read :
    extract_text envOtherExt "notes.xyz".toList = Except.ok "hello".toList ∧
    "hello".toList ≠ ([] : List Char) :=
  ⟨rfl, by decide⟩

/-- C4 (amended): dispatch is by case-sensitive `endswith` on ".pdf" then
".docx"; every path matching neither — including upper-case variants such as
"x.PDF", and .doc, .txt and unsupported extensions — is passed to the UTF-8
text read, whose contents (or error) are returned unchanged. -/
theorem c4_amended_case_sensitive_dispatch (env : ExtractionEnv) (path : List Char)
    (h1 : pyEndsWith path ".pdf".toList = false)
    (h2 : pyEndsWith path ".docx".toList = false) :
    extract_text env path = env.readUtf8 path := by
  unfold extract_text
  rw [h1, h2]
  rfl

/-- Witness for C4 (amended), at the upper-case path "x.PDF". -/
theorem c4_amended_case_sensitive_dispatch_witness :
    pyEndsWith "x.PDF".toList ".pdf".toList = false ∧
    pyEndsWith "x.PDF".toList ".docx".toList = false ∧
    extract_text envOtherExt "x.PDF".toList = envOtherExt.readUtf8 "x.PDF".toList :=
  ⟨by decide, by decide,
   c4_amended_case_sensitive_dispatch envOtherExt "x.PDF".toList (by decide) (by decide)⟩

/-- C5 (counterexample): for the pdf "r.pdf" whose raw page text is "a  b",
the active extractor returns the raw text "a  b", which is not equal to
`_clean_text` of the raw text (the double space would collapse): the result
is not in normalized form. -/
theorem c5_counterexample_raw_not_normalized :
    extract_text envRawPdf "r.pdf".toList = Except.ok "a  b".toList ∧
    cleanText "a  b".toList ≠ "a  b".toList :=
  ⟨rfl, by decide⟩

/-- C5 (amended): the active `extract_text` applies no normalization — for a
successfully opened .pdf it returns the page texts concatenated with no
separator, exactly as extracted; `_clean_text` is applied only by the unused
earlier helper `extract_text_from_pdf`, which normalizes the pages joined
with a space. -/
theorem c5_amended_extractor_returns_raw_text :
    (∀ (env : ExtractionEnv) (path : List Char) (pages : List (List Char)),
      pyEndsWith path ".pdf".toList = true →
      env.fitzOpen path = Except.ok pages →
      extract_text env path = Except.ok (pages.foldl (fun acc p => acc ++ p) [])) ∧
    (∀ (env : ExtractionEnv) (path : List Char) (pages : List (List Char)),
      env.fitzOpen path = Except.ok pages →
      extract_text_from_pdf env path = cleanText (List.intercalate " ".toList pages)) := by
  constructor
  · intro env path pages h1 h2
    unfold extract_text
    rw [h1, h2]
    rfl
  · intro env path pages h
    unfold extract_text_from_pdf
    rw [h]

/-- Witness for C5 (amended), at the one-page pdf "r.pdf" with raw page text
"a  b". -/
theorem c5_amended_extractor_returns_raw_text_witness :
    pyEndsWith "r.pdf".toList ".pdf".toList = true ∧
    envRawPdf.fitzOpen "r.pdf".toList = Except.ok ["a  b".toList] ∧
    extract_text envRawPdf "r.pdf".toList = Except.ok "a  b".toList ∧
    extract_text_from_pdf envRawPdf "r.pdf".toList = cleanText "a  b".toList :=
  ⟨by decide, rfl,
   (c5_amended_extractor_returns_raw_text.1 envRawPdf "r.pdf".toList
      ["a  b".toList] (by decide) rfl).trans rfl,
   (c5_amended_extractor_returns_raw_text.2 envRawPdf "r.pdf".toList
      ["a  b".toList] rfl).trans rfl⟩

/-- C7: a file named "react dev_jsmith.pdf" in folder "Resumes" whose body
text contains "PeopleSoft" resolves to "UI Developer (React JS)": the generic
folder name is skipped, and the filename-prefix tier (with prefix
"react dev") answers before the keyword tier is consulted, so the result does
not depend on the text. -/
theorem c7_prefix_tier_preempts_keyword_tier (t : List Char)
    (h : isSubstr "PeopleSoft".toList t = true) :
    derive_profile "react dev_jsmith.pdf".toList "Resumes".toList t
      = "UI Developer (React JS)".toList ∧
    matchPrefixToProfile "react dev".toList
      = some "UI Developer (React JS)".toList :=
  ⟨rfl, rfl⟩

/-- Witness for C7 at the body text "uses PeopleSoft daily". -/
theorem c7_prefix_tier_preempts_keyword_tier_witness :
    isSubstr "PeopleSoft".toList "uses PeopleSoft daily".toList = true ∧
    derive_profile "react dev_jsmith.pdf".toList "Resumes".toList
        "uses PeopleSoft daily".toList
      = "UI Developer (React JS)".toList :=
  ⟨by decide,
   (c7_prefix_tier_preempts_keyword_tier "uses PeopleSoft daily".toList (by decide)).1⟩

/-- C8: whenever the stripped folder name lowercases to "peoplesoft resumes"
and the lowercased file name contains "admin", the profile is
"PeopleSoft Administrator" for every body text — in particular also when the
finance marker is present, because the admin check is evaluated first. -/
theorem c8_peoplesoft_admin_check_first (fn fo t : List Char)
    (h1 : pyLower (pyStrip fo) = "peoplesoft resumes".toList)
    (h2 : isSubstr "admin".toList (pyLower fn) = true) :
    derive_profile fn fo t = "PeopleSoft Administrator".toList := by
  have hne : (pyStrip fo).isEmpty = false := by
    cases hs : pyStrip fo with
    | nil => rw [hs] at h1; exact absurd h1 (by decide)
    | cons a l => rfl
  unfold derive_profile
  rw [hne, h1]
  show refinePeopleSoft fn t = _
  unfold refinePeopleSoft
  rw [h2]
  rfl

/-- Witness for C8: folder "PeopleSoft Resumes", file "admin finance.doc"
carrying both the admin and the finance marker, body text "finance". -/
theorem c8_peoplesoft_admin_check_first_witness :
    pyLower (pyStrip "PeopleSoft Resumes".toList) = "peoplesoft resumes".toList ∧
    isSubstr "admin".toList (pyLower "admin finance.doc".toList) = true ∧
    isSubstr "finance".toList (pyLower "admin finance.doc".toList) = true ∧
    derive_profile "admin finance.doc".toList "PeopleSoft Resumes".toList
        "finance".toList
      = "PeopleSoft Administrator".toList :=
  ⟨by decide, by decide, by decide,
   c8_peoplesoft_admin_check_first "admin finance.doc".toList
     "PeopleSoft Resumes".toList "finance".toList (by decide) (by decide)⟩

theorem derive_profile_workday_const {fo : List Char}
    (h1 : pyLower (pyStrip fo) = "workday resumes".toList) (fn t : List Char) :
    derive_profile fn fo t = "Workday Specialist".toList := by
  have hne : (pyStrip fo).isEmpty = false := by
    cases hs : pyStrip fo with
    | nil => rw [hs] at h1; exact absurd h1 (by decide)
    | cons a l => rfl
  unfold derive_profile
  rw [hne, h1]
  rfl

theorem derive_profile_sql_const {fo : List Char}
    (h1 : pyLower (pyStrip fo) = "sql developer lightning insight".toList)
    (fn t : List Char) :
    derive_profile fn fo t = "Database Developer / SQL Developer".toList := by
  have hne : (pyStrip fo).isEmpty = false := by
    cases hs : pyStrip fo with
    | nil => rw [hs] at h1; exact absurd h1 (by decide)
    | cons a l => rfl
  unfold derive_profile
  rw [hne, h1]
  rfl

/-- C10: for a folder that lowercases to "workday resumes" the profile is
always "Workday Specialist", and for "sql developer lightning insight" it is
always "Database Developer / SQL Developer" — independent of file name and
text, so any two runs differing only in those agree; unlike the PeopleSoft
folder, where the profile does inspect the file name. -/
theorem c10_mapped_folders_ignore_name_and_text :
    (∀ fo, pyLower (pyStrip fo) = "workday resumes".toList →
      ∀ fn t, derive_profile fn fo t = "Workday Specialist".toList) ∧
    (∀ fo, pyLower (pyStrip fo) = "sql developer lightning insight".toList →
      ∀ fn t, derive_profile fn fo t = "Database Developer / SQL Developer".toList) ∧
    (∀ fo fn1 t1 fn2 t2, pyLower (pyStrip fo) = "workday resumes".toList →
      derive_profile fn1 fo t1 = derive_profile fn2 fo t2) ∧
    (∀ fo fn1 t1 fn2 t2,
      pyLower (pyStrip fo) = "sql developer lightning insight".toList →
      derive_profile fn1 fo t1 = derive_profile fn2 fo t2) ∧
    derive_profile "admin_x.doc".toList "PeopleSoft Resumes".toList []
      ≠ derive_profile "x.doc".toList "PeopleSoft Resumes".toList [] :=
  ⟨fun fo h fn t => derive_profile_workday_const h fn t,
   fun fo h fn t => derive_profile_sql_const h fn t,
   fun fo fn1 t1 fn2 t2 h =>
     (derive_profile_workday_const h fn1 t1).trans
       (derive_profile_workday_const h fn2 t2).symm,
   fun fo fn1 t1 fn2 t2 h =>
     (derive_profile_sql_const h fn1 t1).trans
       (derive_profile_sql_const h fn2 t2).symm,
   by decide⟩

/-- Witness for C10 at the folders "Workday Resumes" and
"SQL Developer Lightning Insight". -/
theorem c10_mapped_folders_ignore_name_and_text_witness :
    pyLower (pyStrip "Workday Resumes".toList) = "workday resumes".toList ∧
    derive_profile "a_b.pdf".toList "Workday Resumes".toList "sql intern".toList
      = "Workday Specialist".toList ∧
    pyLower (pyStrip "SQL Developer Lightning Insight".toList)
      = "sql developer lightning insight".toList ∧
    derive_profile "x.docx".toList "SQL Developer Lightning Insight".toList
        "workday".toList
      = "Database Developer / SQL Developer".toList :=
  ⟨by decide,
   c10_mapped_folders_ignore_name_and_text.1 "Workday Resumes".toList (by decide)
     "a_b.pdf".toList "sql intern".toList,
   by decide,
   c10_mapped_folders_ignore_name_and_text.2.1
     "SQL Developer Lightning Insight".toList (by decide)
     "x.docx".toList "workday".toList⟩

theorem buildRawRows_keys {env : ExtractionEnv} :
    ∀ {ps : List (List Char × List Char)} {rs : List RawRow},
    buildRawRows env ps = Except.ok rs →
    rs.map (fun r => (r.folder, r.file, r.type, r.path)) = ps.map expectedKey := by
  intro ps
  induction ps with
  | nil =>
    intro rs h
    unfold buildRawRows at h
    cases h
    rfl
  | cons p rest ih =>
    intro rs h
    unfold buildRawRows at h
    split at h
    · exact Except.noConfusion h
    next text hext =>
      split at h
      · exact Except.noConfusion h
      next rs2 hrec =>
        cases h
        rw [List.map_cons, List.map_cons, ih hrec]
        rfl

/-- C6: the corpus builder produces one row per ingested file, in traversal
order, each row carrying the seven columns Folder, File, Type, Path, Text,
Category, Profile (the `ResumeRow` fields), with Folder/File/Type/Path
determined by the walk and Category/Profile computed from the row's own
folder, file and text; and a walk yielding no files produces the empty
sequence rather than an error. -/
theorem c6_corpus_schema_rows_and_empty :
    (∀ (env : ExtractionEnv) (walk : List (List Char × List (List Char))),
      walkFiles walk = [] → preprocess_data env walk = Except.ok []) ∧
    (∀ (env : ExtractionEnv) (walk : List (List Char × List (List Char)))
        (rows : List ResumeRow),
      preprocess_data env walk = Except.ok rows →
      rows.map rowKey = (walkFiles walk).map expectedKey ∧
      ∀ r ∈ rows, r.category = categoryOf r.folder ∧
        r.profile = derive_profile r.file r.folder r.text) := by
  constructor
  · intro env walk hw
    unfold preprocess_data
    rw [hw]
    rfl
  · intro env walk rows h
    unfold preprocess_data at h
    split at h
    · exact Except.noConfusion h
    next rs hrec =>
      by_cases he : rs.isEmpty = true
      · rw [if_pos he] at h
        cases h
        have hnil : rs = [] := by
          cases rs with
          | nil => rfl
          | cons a t => simp [List.isEmpty] at he
        constructor
        · rw [hnil] at hrec
          have hk := buildRawRows_keys hrec
          simpa using hk
        · intro r hr
          simp at hr
      · rw [if_neg he] at h
        cases h
        constructor
        · have hk := buildRawRows_keys hrec
          rw [List.map_map]
          exact hk
        · intro r hr
          obtain ⟨r0, hr0, hre⟩ := List.mem_map.mp hr
          rw [← hre]
          exact ⟨rfl, rfl⟩

/-- Witness for C6: the empty walk, and a walk with the single file
`dir/a.docx` whose extraction succeeds. -/
theorem c6_corpus_schema_rows_and_empty_witness :
    walkFiles ([] : List (List Char × List (List Char))) = [] ∧
    preprocess_data envDocxDir [] = Except.ok [] ∧
    preprocess_data envDocxDir [("dir".toList, ["a.docx".toList])]
      = Except.ok [⟨"dir".toList, "a.docx".toList, ".docx".toList,
          "dir/a.docx".toList, "hi there".toList,
          "React JS Developer".toList, "dir".toList⟩] ∧
    ([⟨"dir".toList, "a.docx".toList, ".docx".toList, "dir/a.docx".toList,
        "hi there".toList, "React JS Developer".toList, "dir".toList⟩] :
        List ResumeRow).map rowKey
      = (walkFiles [("dir".toList, ["a.docx".toList])]).map expectedKey :=
  ⟨rfl,
   c6_corpus_schema_rows_and_empty.1 envDocxDir [] rfl,
   rfl,
   (c6_corpus_schema_rows_and_empty.2 envDocxDir
      [("dir".toList, ["a.docx".toList])] _ rfl).1⟩

theorem noAdjPair_cons_of {p : Char → Bool} {c : Char} {l : List Char}
    (h1 : ∀ d, l.head? = some d → (p c && p d) = false)
    (h2 : noAdjPair p l = true) : noAdjPair p (c :: l) = true := by
  cases l with
  | nil => rfl
  | cons d rest =>
    have hd := h1 d rfl
    simp only [noAdjPair, hd, Bool.not_false, Bool.true_and]
    exact h2

theorem noAdjPair_tail {p : Char → Bool} {c : Char} {l : List Char}
    (h : noAdjPair p (c :: l) = true) : noAdjPair p l = true := by
  cases l with
  | nil => rfl
  | cons d rest =>
    have h2 : (!(p c && p d) && noAdjPair p (d :: rest)) = true := h
    rw [Bool.and_eq_true] at h2
    exact h2.2

theorem noAdjPair_head {p : Char → Bool} {c d : Char} {l : List Char}
    (h : noAdjPair p (c :: l) = true) (hd : l.head? = some d) :
    (p c && p d) = false := by
  cases l with
  | nil => cases hd
  | cons e rest =>
    have he : e = d := by
      injection hd
    subst he
    have h2 : (!(p c && p e) && noAdjPair p (e :: rest)) = true := h
    rw [Bool.and_eq_true] at h2
    have h1 := h2.1
    cases hb : (p c && p e) with
    | false => rfl
    | true => rw [hb] at h1; exact absurd h1 (by decide)

theorem replaceRunsAux_head_true {p : Char → Bool} {r : Char} :
    ∀ {l : List Char} {d : Char},
    (replaceRunsAux p r true l).head? = some d → p d = false := by
  intro l
  induction l with
  | nil => intro d h; cases h
  | cons c rest ih =>
    intro d h
    cases hc : p c with
    | true =>
      simp only [replaceRunsAux, hc, if_true] at h
      exact ih h
    | false =>
      simp only [replaceRunsAux, hc, Bool.false_eq_true, if_false, List.head?_cons] at h
      injection h with h
      subst h
      exact hc

theorem replaceRunsAux_id {p : Char → Bool} {r : Char}
    (hp : ∀ c, p c = true → c = r) :
    ∀ {l : List Char}, noAdjPair p l = true → replaceRunsAux p r false l = l := by
  intro l
  induction l with
  | nil => intro h; rfl
  | cons c rest ih =>
    intro h
    cases hc : p c with
    | false =>
      simp only [replaceRunsAux, hc, Bool.false_eq_true, if_false]
      rw [ih (noAdjPair_tail h)]
    | true =>
      have hcr := hp c hc
      cases rest with
      | nil =>
        simp only [replaceRunsAux, hc, if_true, Bool.false_eq_true, if_false]
        rw [hcr]
      | cons d rest2 =>
        have hd : (p c && p d) = false := noAdjPair_head h rfl
        rw [hc, Bool.true_and] at hd
        have ht := ih (noAdjPair_tail h)
        have h2 : replaceRunsAux p r false (d :: rest2)
            = d :: replaceRunsAux p r false rest2 := by
          simp only [replaceRunsAux, hd, Bool.false_eq_true, if_false]
        rw [h2] at ht
        injection ht with _ ht2
        simp only [replaceRunsAux, hc, if_true, hd, Bool.false_eq_true, if_false]
        rw [ht2, hcr]

theorem noAdjPair_replaceRunsAux {p : Char → Bool} {r : Char} :
    ∀ (l : List Char) (b : Bool), noAdjPair p (replaceRunsAux p r b l) = true := by
  intro l
  induction l with
  | nil => intro b; rfl
  | cons c rest ih =>
    intro b
    cases hc : p c with
    | false =>
      simp only [replaceRunsAux, hc, Bool.false_eq_true, if_false]
      apply noAdjPair_cons_of
      · intro d _
        rw [hc, Bool.false_and]
      · exact ih false
    | true =>
      cases b with
      | true =>
        simp only [replaceRunsAux, hc, if_true]
        exact ih true
      | false =>
        simp only [replaceRunsAux, hc, if_true, Bool.false_eq_true, if_false]
        apply noAdjPair_cons_of
        · intro d hd
          rw [replaceRunsAux_head_true hd, Bool.and_false]
        · exact ih true

theorem isNL_eq_false_of_isHW {c : Char} (h : isHW c = true) : isNL c = false := by
  have h2 : (c == ' ' || c == '\t') = true := h
  rw [Bool.or_eq_true] at h2
  rcases h2 with h2 | h2
  · rw [eq_of_beq h2]; rfl
  · rw [eq_of_beq h2]; rfl

theorem collapseHWAux_many_head :
    ∀ {l : List Char} {d : Char},
    (collapseHWAux HWState.many l).head? = some d → isHW d = false := by
  intro l
  induction l with
  | nil => intro d h; cases h
  | cons c rest ih =>
    intro d h
    cases hc : isHW c with
    | true =>
      simp only [collapseHWAux, hc, if_true] at h
      exact ih h
    | false =>
      simp only [collapseHWAux, hc, Bool.false_eq_true, if_false, List.head?_cons] at h
      injection h with h
      subst h
      exact hc

theorem collapseHWAux_norm_head_nl :
    ∀ {l : List Char} {d : Char}, (collapseHWAux HWState.norm l).head? = some d →
    isNL d = true → l.head? = some d := by
  intro l d h hd
  cases l with
  | nil => cases h
  | cons c rest =>
    cases hc : isHW c with
    | false =>
      simp only [collapseHWAux, hc, Bool.false_eq_true, if_false, List.head?_cons] at h
      rw [List.head?_cons]
      exact h
    | true =>
      exfalso
      have hdn : d = '\n' := eq_of_beq hd
      subst hdn
      simp only [collapseHWAux, hc, if_true] at h
      cases rest with
      | nil =>
        simp only [collapseHWAux, List.head?_cons] at h
        injection h with h
        rw [h] at hc
        exact absurd hc (by decide)
      | cons e rest2 =>
        cases he : isHW e with
        | true =>
          simp only [collapseHWAux, he, if_true, List.head?_cons] at h
          injection h with h
          exact absurd h (by decide)
        | false =>
          simp only [collapseHWAux, he, Bool.false_eq_true, if_false, List.head?_cons] at h
          injection h with h
          rw [h] at hc
          exact absurd hc (by decide)

theorem noAdjPair_isHW_collapseHWAux :
    ∀ (l : List Char),
      noAdjPair isHW (collapseHWAux HWState.norm l) = true ∧
      noAdjPair isHW (collapseHWAux HWState.many l) = true ∧
      ∀ c, noAdjPair isHW (collapseHWAux (HWState.one c) l) = true := by
  intro l
  induction l with
  | nil => exact ⟨rfl, rfl, fun c => rfl⟩
  | cons d rest ih =>
    obtain ⟨ihn, ihm, iho⟩ := ih
    refine ⟨?_, ?_, ?_⟩
    · cases hd : isHW d with
      | true =>
        simp only [collapseHWAux, hd, if_true]
        exact iho d
      | false =>
        simp only [collapseHWAux, hd, Bool.false_eq_true, if_false]
        apply noAdjPair_cons_of
        · intro e _
          rw [hd, Bool.false_and]
        · exact ihn
    · cases hd : isHW d with
      | true =>
        simp only [collapseHWAux, hd, if_true]
        exact ihm
      | false =>
        simp only [collapseHWAux, hd, Bool.false_eq_true, if_false]
        apply noAdjPair_cons_of
        · intro e _
          rw [hd, Bool.false_and]
        · exact ihn
    · intro c
      cases hd : isHW d with
      | true =>
        simp only [collapseHWAux, hd, if_true]
        apply noAdjPair_cons_of
        · intro e he
          rw [collapseHWAux_many_head he, Bool.and_false]
        · exact ihm
      | false =>
        simp only [collapseHWAux, hd, Bool.false_eq_true, if_false]
        apply noAdjPair_cons_of
        · intro e he
          rw [List.head?_cons] at he
          injection he with he
          rw [← he, hd, Bool.and_false]
        · apply noAdjPair_cons_of
          · intro e _
            rw [hd, Bool.false_and]
          · exact ihn

theorem collapseHWAux_norm_id :
    ∀ {l : List Char}, noAdjPair isHW l = true → collapseHWAux HWState.norm l = l := by
  intro l
  induction l with
  | nil => intro h; rfl
  | cons c rest ih =>
    intro h
    cases hc : isHW c with
    | false =>
      simp only [collapseHWAux, hc, Bool.false_eq_true, if_false]
      rw [ih (noAdjPair_tail h)]
    | true =>
      cases rest with
      | nil => simp [collapseHWAux, hc]
      | cons d rest2 =>
        have hd : (isHW c && isHW d) = false := noAdjPair_head h rfl
        rw [hc, Bool.true_and] at hd
        have ht := ih (noAdjPair_tail h)
        have h2 : collapseHWAux HWState.norm (d :: rest2)
            = d :: collapseHWAux HWState.norm rest2 := by
          simp only [collapseHWAux, hd, Bool.false_eq_true, if_false]
        rw [h2] at ht
        injection ht with _ ht2
        simp only [collapseHWAux, hc, if_true, hd, Bool.false_eq_true, if_false]
        rw [ht2]

theorem pair_nl_with_norm_head {d e : Char} {rest : List Char}
    (h : noAdjPair isNL (d :: rest) = true)
    (he : (collapseHWAux HWState.norm rest).head? = some e) :
    (isNL d && isNL e) = false := by
  cases hdn : isNL d with
  | false => rw [Bool.false_and]
  | true =>
    cases hen : isNL e with
    | false => rfl
    | true =>
      have hre := collapseHWAux_norm_head_nl he hen
      have h2 := noAdjPair_head h hre
      rw [hdn, hen] at h2
      exact absurd h2 (by decide)

theorem noAdjPair_isNL_collapseHWAux :
    ∀ (l : List Char), noAdjPair isNL l = true →
      noAdjPair isNL (collapseHWAux HWState.norm l) = true ∧
      noAdjPair isNL (collapseHWAux HWState.many l) = true ∧
      ∀ c, isHW c = true → noAdjPair isNL (collapseHWAux (HWState.one c) l) = true := by
  intro l
  induction l with
  | nil => intro h; exact ⟨rfl, rfl, fun c _ => rfl⟩
  | cons d rest ih =>
    intro h
    obtain ⟨ihn, ihm, iho⟩ := ih (noAdjPair_tail h)
    refine ⟨?_, ?_, ?_⟩
    · cases hd : isHW d with
      | true =>
        simp only [collapseHWAux, hd, if_true]
        exact iho d hd
      | false =>
        simp only [collapseHWAux, hd, Bool.false_eq_true, if_false]
        apply noAdjPair_cons_of
        · intro e he
          exact pair_nl_with_norm_head h he
        · exact ihn
    · cases hd : isHW d with
      | true =>
        simp only [collapseHWAux, hd, if_true]
        exact ihm
      | false =>
        simp only [collapseHWAux, hd, Bool.false_eq_true, if_false]
        apply noAdjPair_cons_of
        · intro e he
          exact pair_nl_with_norm_head h he
        · exact ihn
    · intro c hc
      cases hd : isHW d with
      | true =>
        simp only [collapseHWAux, hd, if_true]
        apply noAdjPair_cons_of
        · intro e _
          rfl
        · exact ihm
      | false =>
        simp only [collapseHWAux, hd, Bool.false_eq_true, if_false]
        apply noAdjPair_cons_of
        · intro e he
          rw [List.head?_cons] at he
          injection he with he
          rw [← he, isNL_eq_false_of_isHW hc, Bool.false_and]
        · apply noAdjPair_cons_of
          · intro e he
            exact pair_nl_with_norm_head h he
          · exact ihn

theorem mem_replaceRunsAux {p : Char → Bool} {r c : Char} :
    ∀ {l : List Char} {b : Bool}, c ∈ replaceRunsAux p r b l → c = r ∨ c ∈ l := by
  intro l
  induction l with
  | nil => intro b h; cases h
  | cons d rest ih =>
    intro b h
    cases hd : p d with
    | false =>
      simp only [replaceRunsAux, hd, Bool.false_eq_true, if_false, List.mem_cons] at h
      rcases h with h | h
      · exact Or.inr (h ▸ List.mem_cons_self d rest)
      · rcases ih h with h2 | h2
        · exact Or.inl h2
        · exact Or.inr (List.mem_cons_of_mem d h2)
    | true =>
      cases b with
      | true =>
        simp only [replaceRunsAux, hd, if_true] at h
        rcases ih h with h2 | h2
        · exact Or.inl h2
        · exact Or.inr (List.mem_cons_of_mem d h2)
      | false =>
        simp only [replaceRunsAux, hd, if_true, Bool.false_eq_true, if_false,
          List.mem_cons] at h
        rcases h with h | h
        · exact Or.inl h
        · rcases ih h with h2 | h2
          · exact Or.inl h2
          · exact Or.inr (List.mem_cons_of_mem d h2)

theorem mem_collapseHWAux {c : Char} :
    ∀ {l : List Char},
      (c ∈ collapseHWAux HWState.norm l → c = ' ' ∨ c ∈ l) ∧
      (c ∈ collapseHWAux HWState.many l → c = ' ' ∨ c ∈ l) ∧
      (∀ b, c ∈ collapseHWAux (HWState.one b) l → c = ' ' ∨ c = b ∨ c ∈ l) := by
  intro l
  induction l with
  | nil =>
    refine ⟨fun h => absurd h (by simp [collapseHWAux]),
            fun h => absurd h (by simp [collapseHWAux]), fun b h => ?_⟩
    simp only [collapseHWAux, List.mem_singleton] at h
    exact Or.inr (Or.inl h)
  | cons d rest ih =>
    obtain ⟨ihn, ihm, iho⟩ := ih
    refine ⟨?_, ?_, ?_⟩
    · intro h
      cases hd : isHW d with
      | true =>
        rw [show collapseHWAux HWState.norm (d :: rest)
            = collapseHWAux (HWState.one d) rest by
          simp only [collapseHWAux, hd, if_true]] at h
        rcases iho d h with h2 | h2 | h2
        · exact Or.inl h2
        · exact Or.inr (h2 ▸ List.mem_cons_self d rest)
        · exact Or.inr (List.mem_cons_of_mem d h2)
      | false =>
        rw [show collapseHWAux HWState.norm (d :: rest)
            = d :: collapseHWAux HWState.norm rest by
          simp only [collapseHWAux, hd, Bool.false_eq_true, if_false]] at h
        rcases List.mem_cons.mp h with h2 | h2
        · exact Or.inr (h2 ▸ List.mem_cons_self d rest)
        · rcases ihn h2 with h3 | h3
          · exact Or.inl h3
          · exact Or.inr (List.mem_cons_of_mem d h3)
    · intro h
      cases hd : isHW d with
      | true =>
        rw [show collapseHWAux HWState.many (d :: rest)
            = collapseHWAux HWState.many rest by
          simp only [collapseHWAux, hd, if_true]] at h
        rcases ihm h with h2 | h2
        · exact Or.inl h2
        · exact Or.inr (List.mem_cons_of_mem d h2)
      | false =>
        rw [show collapseHWAux HWState.many (d :: rest)
            = d :: collapseHWAux HWState.norm rest by
          simp only [collapseHWAux, hd, Bool.false_eq_true, if_false]] at h
        rcases List.mem_cons.mp h with h2 | h2
        · exact Or.inr (h2 ▸ List.mem_cons_self d rest)
        · rcases ihn h2 with h3 | h3
          · exact Or.inl h3
          · exact Or.inr (List.mem_cons_of_mem d h3)
    · intro b h
      cases hd : isHW d with
      | true =>
        rw [show collapseHWAux (HWState.one b) (d :: rest)
            = ' ' :: collapseHWAux HWState.many rest by
          simp only [collapseHWAux, hd, if_true]] at h
        rcases List.mem_cons.mp h with h2 | h2
        · exact Or.inl h2
        · rcases ihm h2 with h3 | h3
          · exact Or.inl h3
          · exact Or.inr (Or.inr (List.mem_cons_of_mem d h3))
      | false =>
        rw [show collapseHWAux (HWState.one b) (d :: rest)
            = b :: d :: collapseHWAux HWState.norm rest by
          simp only [collapseHWAux, hd, Bool.false_eq_true, if_false]] at h
        rcases List.mem_cons.mp h with h2 | h2
        · exact Or.inr (Or.inl h2)
        · rcases List.mem_cons.mp h2 with h3 | h3
          · exact Or.inr (Or.inr (h3 ▸ List.mem_cons_self d rest))
          · rcases ihn h3 with h4 | h4
            · exact Or.inl h4
            · exact Or.inr (Or.inr (List.mem_cons_of_mem d h4))

theorem mem_dropWhile {c : Char} {q : Char → Bool} {l : List Char}
    (h : c ∈ l.dropWhile q) : c ∈ l := by
  have ht : l.takeWhile q ++ l.dropWhile q = l := List.takeWhile_append_dropWhile q l
  rw [← ht]
  exact List.mem_append_right _ h

theorem mem_pyStrip {c : Char} {l : List Char} (h : c ∈ pyStrip l) : c ∈ l := by
  unfold pyStrip at h
  rw [List.mem_reverse] at h
  have h2 := mem_dropWhile h
  rw [List.mem_reverse] at h2
  exact mem_dropWhile h2

theorem replCRLF_of_no_cr : ∀ {l : List Char}, '\r' ∉ l → replCRLF l = l := by
  intro l
  induction l with
  | nil => intro h; rfl
  | cons c rest ih =>
    intro h
    have hc : (c == '\r') = false := by
      cases hcc : c == '\r' with
      | false => rfl
      | true =>
        exfalso
        apply h
        rw [eq_of_beq hcc]
        exact List.mem_cons_self _ _
    cases rest with
    | nil => rfl
    | cons d rest2 =>
      have hrest : '\r' ∉ d :: rest2 := fun hm => h (List.mem_cons_of_mem c hm)
      simp only [replCRLF, hc, Bool.false_and, Bool.false_eq_true, if_false]
      rw [ih hrest]

theorem no_cr_cleanText {s : List Char} (h : '\r' ∉ s) : '\r' ∉ cleanText s := by
  unfold cleanText
  intro hm
  have h1 := mem_pyStrip hm
  rcases (mem_collapseHWAux).1 h1 with h2 | h2
  · exact absurd h2 (by decide)
  · rcases mem_replaceRunsAux h2 with h3 | h3
    · exact absurd h3 (by decide)
    · rw [replCRLF_of_no_cr h] at h3
      exact h h3

theorem head_dropWhile_false {q : Char → Bool} :
    ∀ {l : List Char} {c : Char}, (l.dropWhile q).head? = some c → q c = false := by
  intro l
  induction l with
  | nil => intro c h; cases h
  | cons a rest ih =>
    intro c h
    cases ha : q a with
    | true =>
      rw [List.dropWhile_cons_of_pos ha] at h
      exact ih h
    | false =>
      rw [List.dropWhile_cons_of_neg (by simp [ha])] at h
      rw [List.head?_cons] at h
      injection h with h
      rw [← h]
      exact ha

theorem dropWhile_eq_self_of_head {q : Char → Bool} {l : List Char}
    (h : ∀ c, l.head? = some c → q c = false) : l.dropWhile q = l := by
  cases l with
  | nil => rfl
  | cons a rest => exact List.dropWhile_cons_of_neg (by simp [h a rfl])

theorem head_append_left {x y : List Char} (h : x ≠ []) :
    (x ++ y).head? = x.head? := by
  cases x with
  | nil => exact absurd rfl h
  | cons a t => rfl

theorem pyStrip_idem (l : List Char) : pyStrip (pyStrip l) = pyStrip l := by
  cases hB : (l.dropWhile isWS).reverse.dropWhile isWS with
  | nil =>
    have h1 : pyStrip l = [] := by unfold pyStrip; rw [hB]; rfl
    rw [h1]
    rfl
  | cons b tB =>
    have hb : isWS b = false := head_dropWhile_false (by rw [hB]; rfl)
    have hsuf : ((l.dropWhile isWS).reverse.takeWhile isWS) ++ (b :: tB)
        = (l.dropWhile isWS).reverse := by
      rw [← hB]
      exact List.takeWhile_append_dropWhile isWS _
    have hA : (b :: tB).reverse ++ ((l.dropWhile isWS).reverse.takeWhile isWS).reverse
        = l.dropWhile isWS := by
      rw [← List.reverse_append, hsuf, List.reverse_reverse]
    have hrevne : (b :: tB).reverse ≠ [] := by simp
    have hheadA : (l.dropWhile isWS).head? = ((b :: tB).reverse).head? := by
      rw [← hA, head_append_left hrevne]
    have hwa : ∀ a, ((b :: tB).reverse).head? = some a → isWS a = false := by
      intro a ha
      apply head_dropWhile_false (l := l)
      rw [hheadA, ha]
    have hPl : pyStrip l = (b :: tB).reverse := by unfold pyStrip; rw [hB]
    rw [hPl]
    unfold pyStrip
    have hd1 : ((b :: tB).reverse).dropWhile isWS = (b :: tB).reverse :=
      dropWhile_eq_self_of_head hwa
    rw [hd1, List.reverse_reverse]
    have hd2 : (b :: tB).dropWhile isWS = b :: tB := by
      apply dropWhile_eq_self_of_head
      intro c hc
      rw [List.head?_cons] at hc
      injection hc with hc
      rw [← hc]
      exact hb
    rw [hd2]

theorem noAdjPair_append_right {p : Char → Bool} :
    ∀ {x y : List Char}, noAdjPair p (x ++ y) = true → noAdjPair p y = true := by
  intro x
  induction x with
  | nil => intro y h; exact h
  | cons c tx ih => intro y h; exact ih (noAdjPair_tail h)

theorem noAdjPair_append_left {p : Char → Bool} :
    ∀ {x y : List Char}, noAdjPair p (x ++ y) = true → noAdjPair p x = true := by
  intro x
  induction x with
  | nil => intro y h; rfl
  | cons c tx ih =>
    intro y h
    cases tx with
    | nil => rfl
    | cons d tx2 =>
      have hh : (p c && p d) = false := noAdjPair_head h rfl
      apply noAdjPair_cons_of
      · intro e he
        rw [List.head?_cons] at he
        injection he with he
        rw [← he]
        exact hh
      · exact ih (noAdjPair_tail h)

theorem noAdjPair_pyStrip {p : Char → Bool} {l : List Char}
    (h : noAdjPair p l = true) : noAdjPair p (pyStrip l) = true := by
  have hA : l.takeWhile isWS ++ l.dropWhile isWS = l :=
    List.takeWhile_append_dropWhile isWS l
  rw [← hA] at h
  have hnA : noAdjPair p (l.dropWhile isWS) = true := noAdjPair_append_right h
  have hsuf : ((l.dropWhile isWS).reverse.takeWhile isWS)
      ++ ((l.dropWhile isWS).reverse.dropWhile isWS) = (l.dropWhile isWS).reverse :=
    List.takeWhile_append_dropWhile isWS _
  have hfact : pyStrip l ++ ((l.dropWhile isWS).reverse.takeWhile isWS).reverse
      = l.dropWhile isWS := by
    unfold pyStrip
    rw [← List.reverse_append, hsuf, List.reverse_reverse]
  apply noAdjPair_append_left (y := ((l.dropWhile isWS).reverse.takeWhile isWS).reverse)
  rw [hfact]
  exact hnA

/-- C9 (counterexample): `_clean_text` is not idempotent.  On the input
"a\r\r\nb" the first pass rewrites the second-and-third characters CRLF to
LF, leaving the new carriage-return-before-newline pair "a\r\nb", which a
second pass rewrites again, to "a\nb". -/
theorem c9_counterexample_cleanText_not_idempotent :
    cleanText (cleanText ['a', '\r', '\r', '\n', 'b'])
      ≠ cleanText ['a', '\r', '\r', '\n', 'b'] := by decide

/-- C9 (amended): `_clean_text` is idempotent on every input string that
contains no carriage-return character; the counterexample "a\r\r\nb" forces
this restriction, because a CR that survives the first CRLF pass can stand
before a newline in the output and be rewritten by a second pass. -/
theorem c9_amended_cleanText_idem_no_cr (s : List Char) (h : '\r' ∉ s) :
    cleanText (cleanText s) = cleanText s := by
  have hp : ∀ c, isNL c = true → c = '\n' := fun c hc => eq_of_beq hc
  have htcr : '\r' ∉ cleanText s := no_cr_cleanText h
  have htNL : noAdjPair isNL (cleanText s) = true := by
    unfold cleanText
    apply noAdjPair_pyStrip
    exact (noAdjPair_isNL_collapseHWAux _ (noAdjPair_replaceRunsAux _ false)).1
  have htHW : noAdjPair isHW (cleanText s) = true := by
    unfold cleanText
    apply noAdjPair_pyStrip
    exact (noAdjPair_isHW_collapseHWAux _).1
  calc cleanText (cleanText s)
      = pyStrip (collapseHW (collapseNL (replCRLF (cleanText s)))) := rfl
    _ = pyStrip (collapseHW (collapseNL (cleanText s))) := by
        rw [replCRLF_of_no_cr htcr]
    _ = pyStrip (collapseHW (cleanText s)) := by
        rw [show collapseNL (cleanText s) = cleanText s from
          replaceRunsAux_id hp htNL]
    _ = pyStrip (cleanText s) := by
        rw [show collapseHW (cleanText s) = cleanText s from
          collapseHWAux_norm_id htHW]
    _ = cleanText s := pyStrip_idem _

/-- Witness for C9 (amended) at the carriage-return-free input
"a  b\n\nc". -/
theorem c9_amended_cleanText_idem_no_cr_witness :
    ('\r' ∉ "a  b\n\nc".toList) ∧
    cleanText (cleanText "a  b\n\nc".toList) = cleanText "a  b\n\nc".toList :=
  ⟨by decide, c9_amended_cleanText_idem_no_cr "a  b\n\nc".toList (by decide)⟩
